import Mathlib

/-!
# WarheadDBCleaner: identifier compaction of `item_instance.guid`

A shallow embedding of `DBCleaner::Init` (src/app/Cleaner/DBCleaner.cpp) and of the
two prepared statements of `CharacterDatabaseConnection::DoPrepareStatements`
(src/database/Database/Implementation/CharacterDatabase.cpp).

`int32` values are embedded as `Int`; the only arithmetic the function performs on
them is the counter `i++` of the fill loop, which stays below `lastGuid`.
-/

namespace DBCleaner

/-! ## Statements -/

/-- A mutating statement handed to `CharacterDatabase.Execute`.

* `updItemInstance a0 a1` is the prepared statement `CHAR_UPD_ITEM_INSTANCE`
  after `SetArguments(a0, a1)`: `UPDATE item_instance SET guid = a0 WHERE guid = a1`.
* `updDependent table column idTo idFrom` is the formatted statement
  `UPDATE table SET column = idTo WHERE column = idFrom`. -/
inductive Statement where
  | updItemInstance (arg0 arg1 : Int)
  | updDependent (table column : String) (idTo idFrom : Int)
  deriving DecidableEq, Repr

/-- The identifier in the `SET` part of a statement. -/
def Statement.setId : Statement → Int
  | .updItemInstance arg0 _ => arg0
  | .updDependent _ _ idTo _ => idTo

/-- The identifier in the `WHERE` part of a statement. -/
def Statement.whereId : Statement → Int
  | .updItemInstance _ arg1 => arg1
  | .updDependent _ _ _ idFrom => idFrom

/-! ## Vector helpers -/

/-- The call `std::erase(v, value)`: removes every element equal to `value`. -/
def stdErase (v : List Int) (value : Int) : List Int :=
  v.filter (fun x => decide (x ≠ value))

/-- Lines 54-55: `for (int32 i = 1; i < lastGuid; i++) freeIDs.emplace_back(i);`
on an empty vector, that is `1, 2, ..., lastGuid - 1`. -/
def fillFreeIDs (lastGuid : Int) : List Int :=
  (List.range (lastGuid - 1).toNat).map (fun (k : Nat) => (k : Int) + 1)

/-- Lines 57-58: `for (auto const& itr : guidList) std::erase(freeIDs, itr);`. -/
def eraseUsed (freeIDs guidList : List Int) : List Int :=
  guidList.foldl stdErase freeIDs

/-- Line 66: `std::sort` with the comparator `a > b`. -/
def sortDescending (guidList : List Int) : List Int :=
  guidList.insertionSort (fun a b => a > b)

/-- Lines 74-82: the planner loop over the descending `guidList`; it stops at the
first iteration that finds `freeIDs` empty, otherwise pairs the current identifier
with `freeIDs.front()` and erases that value from `freeIDs`. -/
def planLoop : List Int → List Int → List (Int × Int)
  | [], _ => []
  | _ :: _, [] => []
  | itr :: rest, replaceTo :: more =>
      (itr, replaceTo) :: planLoop rest (stdErase (replaceTo :: more) replaceTo)

/-! ## Executor -/

/-- Lines 90-102: the registry `cleanDBTables`. -/
def cleanDBTables : List (String × String) :=
  [ ("auctionhouse", "itemguid"),
    ("character_gifts", "item_guid"),
    ("character_inventory", "item"),
    ("guild_bank_item", "item_guid"),
    ("item_loot_storage", "containerGUID"),
    ("item_refund_instance", "item_guid"),
    ("item_soulbound_trade_data", "itemGuid"),
    ("mail_items", "item_guid"),
    ("petition", "petitionguid"),
    ("petition_sign", "petitionguid") ]

/-- Lines 108-115: the statements of one iteration of the executor loop. -/
def entryStatements (idFrom idTo : Int) : List Statement :=
  Statement.updItemInstance idTo idFrom ::
    cleanDBTables.map (fun d => Statement.updDependent d.1 d.2 idTo idFrom)

/-- Lines 104-118: the statements submitted by the executor loop, in order. -/
def executorLoop : List (Int × Int) → List Statement
  | [] => []
  | (idFrom, idTo) :: rest => entryStatements idFrom idTo ++ executorLoop rest

/-- Lines 86-88: the update submitted before the executor loop,
`SetArguments(3631, 1)` on `CHAR_UPD_ITEM_INSTANCE`. -/
def fixedUpdate : Statement := Statement.updItemInstance 3631 1

/-! ## `DBCleaner::Init` -/

/-- What one call of `DBCleaner::Init` computed and submitted. -/
inductive InitResult where
  /-- Line 37: the query returned no result. -/
  | noData
  /-- Line 63: no free identifier below `lastGuid`. -/
  | noFreeIds (lastGuid : Int)
  /-- Line 119: the function ran to its end; `freeIDs` is the vector as it stands
  after line 58. -/
  | replaced (lastGuid : Int) (freeIDs : List Int) (replaceStore : List (Int × Int))
      (statements : List Statement)
  deriving DecidableEq, Repr

/-- The free identifiers computed by the run (none when it returned at line 37). -/
def InitResult.freeIDs : InitResult → List Int
  | .noData => []
  | .noFreeIds _ => []
  | .replaced _ freeIDs _ _ => freeIDs

/-- The mapping built by the run (empty when it returned before line 70). -/
def InitResult.replaceStore : InitResult → List (Int × Int)
  | .noData => []
  | .noFreeIds _ => []
  | .replaced _ _ replaceStore _ => replaceStore

/-- The mutating statements the run submitted, in order. -/
def InitResult.statements : InitResult → List Statement
  | .noData => []
  | .noFreeIds _ => []
  | .replaced _ _ _ statements => statements

/-- The value read by `guidList.back()`, when the run got that far. -/
def InitResult.lastGuid : InitResult → Option Int
  | .noData => none
  | .noFreeIds lastGuid => some lastGuid
  | .replaced lastGuid _ _ _ => some lastGuid

/-- Modelled from the spec: the query interface (`CharacterDatabase.Query`, declared
in DatabaseEnv.h, which is not among the sources) yields an empty result, on which
`!result` holds, when the statement returns zero rows, and otherwise the rows in
the order of `CHAR_SEL_ITEM_INSTANCE` (`ORDER BY guid`). -/
def Query (rows : List Int) : Option (List Int) :=
  match rows with
  | [] => none
  | r :: rs => some (r :: rs)

/-- The function `DBCleaner::Init`, run on the rows `CHAR_SEL_ITEM_INSTANCE` returns.
The result is `none` only where the source would call `back()` on an empty
vector. -/
def Init (rows : List Int) : Option InitResult :=
  match Query rows with
  | none => some InitResult.noData
  | some guidList =>
    match guidList.getLast? with
    | none => none
    | some lastGuid =>
      let freeIDs := eraseUsed (fillFreeIDs lastGuid) guidList
      if freeIDs.isEmpty then
        some (InitResult.noFreeIds lastGuid)
      else
        let replaceStore := planLoop (sortDescending guidList) freeIDs
        some (InitResult.replaced lastGuid freeIDs replaceStore
          (fixedUpdate :: executorLoop replaceStore))

/-! ## Tables -/

/-- The tables the statements act on: `item_instance` as the `guid` of each row
(a row is identified by its position), and a dependent column `table.column` as
the list of its values. -/
structure DB where
  item_instance : List Int
  dependent : String → String → List Int

/-- Modelled from the spec: `guid` is the primary key of `item_instance` (its
schema is not among the sources), so `UPDATE item_instance SET guid = arg0 WHERE
guid = arg1` rewrites the rows whose `guid` is `arg1`, and is rejected, changing
nothing, when it would give a second row the `guid` `arg0`. -/
def updateItemInstance (rows : List Int) (arg0 arg1 : Int) : List Int :=
  if arg0 ≠ arg1 ∧ arg1 ∈ rows ∧ arg0 ∈ rows then rows
  else rows.map (fun g => if g = arg1 then arg0 else g)

/-- The effect of one statement on the tables. -/
def applyStatement (db : DB) : Statement → DB
  | .updItemInstance arg0 arg1 =>
      { db with item_instance := updateItemInstance db.item_instance arg0 arg1 }
  | .updDependent table column idTo idFrom =>
      { db with dependent := fun t c =>
          if t = table ∧ c = column then
            (db.dependent t c).map (fun g => if g = idFrom then idTo else g)
          else db.dependent t c }

/-- The statements of a list applied one after the other. -/
def applyStatements (db : DB) (stmts : List Statement) : DB :=
  stmts.foldl applyStatement db

/-- Lines 104-118 run against the tables: every iteration submits its statements
(`Execute` returns nothing and the loop has no exit), which take effect in
submission order. The result is the final tables and the statements submitted. -/
def executorRun (db : DB) : List (Int × Int) → DB × List Statement
  | [] => (db, [])
  | (idFrom, idTo) :: rest =>
      let stmts := entryStatements idFrom idTo
      let r := executorRun (applyStatements db stmts) rest
      (r.1, stmts ++ r.2)

/-- The scanner on a table: `SELECT guid FROM item_instance ORDER BY guid`. -/
def scan (rows : List Int) : List Int :=
  rows.insertionSort (fun a b => a ≤ b)

/-- One whole pass on the tables: scan, `Init`, and the submitted statements
applied in order. -/
def pass (db : DB) : Option DB :=
  (Init (scan db.item_instance)).map (fun r => applyStatements db r.statements)

/-- Modelled from the spec: the Free-Slot Set of the Calculator's contract, "every
integer in `[1, max_used - 1]` not present in the Inventory", listed ascending. -/
def specFreeSlots (inventory : List Int) (maxUsed : Int) : List Int :=
  ((List.range' 1 (maxUsed - 1).toNat).map (fun (n : Nat) => (n : Int))).filter
    (fun x => decide (x ∉ inventory))

/-- The inventory `1, 2, ..., N` of the no-op property (empty for `N = 0`). -/
def denseInventory (N : Nat) : List Int :=
  (List.range' 1 N).map (fun (n : Nat) => (n : Int))

/-- Tables with the owning rows `rows` and no dependent row. -/
def ownerOnly (rows : List Int) : DB :=
  { item_instance := rows, dependent := fun _ _ => [] }

/-- Tables with the owning rows `rows` and the values `refs` in
`character_inventory.item`, every other dependent column being empty. -/
def withInventoryRefs (rows refs : List Int) : DB :=
  { item_instance := rows
    dependent := fun t c => if t = "character_inventory" ∧ c = "item" then refs else [] }

/-- The identifier a value `g` has become once the updates `SET x = idTo WHERE
x = idFrom` of the entries of `store` have been applied to it in order. -/
def renamed : List (Int × Int) → Int → Int
  | [], g => g
  | (idFrom, idTo) :: rest, g => renamed rest (if g = idFrom then idTo else g)

/-- The submission order stated for one mapping entry `(idFrom, idTo)`: the
owning-table update first, then one update for each of the ten registry descriptors,
`auctionhouse.itemguid` first and `petition_sign.petitionguid` last. -/
def statedEntryOrder (idFrom idTo : Int) : List Statement :=
  [ Statement.updItemInstance idTo idFrom,
    Statement.updDependent "auctionhouse" "itemguid" idTo idFrom,
    Statement.updDependent "character_gifts" "item_guid" idTo idFrom,
    Statement.updDependent "character_inventory" "item" idTo idFrom,
    Statement.updDependent "guild_bank_item" "item_guid" idTo idFrom,
    Statement.updDependent "item_loot_storage" "containerGUID" idTo idFrom,
    Statement.updDependent "item_refund_instance" "item_guid" idTo idFrom,
    Statement.updDependent "item_soulbound_trade_data" "itemGuid" idTo idFrom,
    Statement.updDependent "mail_items" "item_guid" idTo idFrom,
    Statement.updDependent "petition" "petitionguid" idTo idFrom,
    Statement.updDependent "petition_sign" "petitionguid" idTo idFrom ]

/-! ## Lemmas on the vector helpers -/

theorem eraseUsed_eq_filter (guidList freeIDs : List Int) :
    eraseUsed freeIDs guidList = freeIDs.filter (fun x => decide (x ∉ guidList)) := by
  induction guidList generalizing freeIDs with
  | nil => simp [eraseUsed]
  | cons a l ih =>
    have h := ih (stdErase freeIDs a)
    simp only [eraseUsed, List.foldl_cons] at h ⊢
    rw [h, stdErase, List.filter_filter]
    apply List.filter_congr
    intro x _
    by_cases hxa : x = a <;> simp [hxa]

theorem mem_fillFreeIDs (lastGuid x : Int) :
    x ∈ fillFreeIDs lastGuid ↔ 1 ≤ x ∧ x ≤ lastGuid - 1 := by
  simp only [fillFreeIDs, List.mem_map, List.mem_range]
  constructor
  · rintro ⟨k, hk, rfl⟩
    omega
  · rintro ⟨h1, h2⟩
    exact ⟨(x - 1).toNat, by omega, by omega⟩

theorem fillFreeIDs_sorted (lastGuid : Int) : (fillFreeIDs lastGuid).Sorted (· < ·) := by
  unfold fillFreeIDs
  generalize (lastGuid - 1).toNat = n
  have h : (List.range n).Pairwise (· < ·) := List.pairwise_lt_range n
  refine List.Pairwise.map _ ?_ h
  intro a b hab
  omega

theorem mem_eraseUsed (guidList : List Int) (lastGuid x : Int) :
    x ∈ eraseUsed (fillFreeIDs lastGuid) guidList ↔
      1 ≤ x ∧ x ≤ lastGuid - 1 ∧ x ∉ guidList := by
  rw [eraseUsed_eq_filter, List.mem_filter, mem_fillFreeIDs]
  simp [and_assoc]

theorem eraseUsed_sorted (guidList : List Int) (lastGuid : Int) :
    (eraseUsed (fillFreeIDs lastGuid) guidList).Sorted (· < ·) := by
  rw [eraseUsed_eq_filter]
  exact List.Pairwise.filter _ (fillFreeIDs_sorted lastGuid)

theorem eraseUsed_nodup (guidList : List Int) (lastGuid : Int) :
    (eraseUsed (fillFreeIDs lastGuid) guidList).Nodup :=
  (eraseUsed_sorted guidList lastGuid).imp (fun h => ne_of_lt h)

theorem fillFreeIDs_eq_range' (lastGuid : Int) :
    fillFreeIDs lastGuid = (List.range' 1 (lastGuid - 1).toNat).map (fun (n : Nat) => (n : Int)) := by
  unfold fillFreeIDs
  rw [List.range'_eq_map_range, List.map_map]
  apply List.map_congr_left
  intro k _
  simp [Function.comp]
  omega

theorem eraseUsed_eq_specFreeSlots (guidList : List Int) (lastGuid : Int) :
    eraseUsed (fillFreeIDs lastGuid) guidList = specFreeSlots guidList lastGuid := by
  rw [eraseUsed_eq_filter, fillFreeIDs_eq_range', specFreeSlots]

theorem stdErase_head (a : Int) (l : List Int) (h : a ∉ l) : stdErase (a :: l) a = l := by
  unfold stdErase
  rw [List.filter_cons_of_neg (by simp)]
  rw [List.filter_eq_self]
  intro x hx
  have : x ≠ a := fun e => h (e ▸ hx)
  simpa using this

theorem planLoop_eq_zip (guidList freeIDs : List Int) (hf : freeIDs.Nodup) :
    planLoop guidList freeIDs = List.zip guidList freeIDs := by
  induction guidList generalizing freeIDs with
  | nil => simp [planLoop]
  | cons g gs ih =>
    cases freeIDs with
    | nil => simp [planLoop]
    | cons a l =>
      rw [List.nodup_cons] at hf
      simp only [planLoop, List.zip_cons_cons]
      rw [stdErase_head a l hf.1, ih l hf.2]

theorem orderedInsert_gt_of_lt_all (a : Int) (l : List Int) (h : ∀ b ∈ l, a < b) :
    List.orderedInsert (fun x y : Int => x > y) a l = l ++ [a] := by
  induction l with
  | nil => simp
  | cons b bs ih =>
    have hab : ¬ a > b := by
      have := h b (List.mem_cons_self b bs)
      omega
    rw [List.orderedInsert, if_neg hab, ih (fun c hc => h c (List.mem_cons_of_mem b hc))]
    rfl

theorem sortDescending_of_sorted (guidList : List Int) (hs : guidList.Sorted (· < ·)) :
    sortDescending guidList = guidList.reverse := by
  induction guidList with
  | nil => rfl
  | cons a l ih =>
    have hs2 := List.pairwise_cons.mp hs
    unfold sortDescending at ih ⊢
    rw [List.insertionSort, ih hs2.2, List.reverse_cons]
    apply orderedInsert_gt_of_lt_all
    intro b hb
    exact hs2.1 b (List.mem_reverse.mp hb)

/-- The value of `Init` on a non-empty scan. -/
theorem Init_eq (inv : List Int) (hne : inv ≠ []) :
    Init inv = some
      (if (eraseUsed (fillFreeIDs (inv.getLast hne)) inv).isEmpty then
        InitResult.noFreeIds (inv.getLast hne)
      else
        InitResult.replaced (inv.getLast hne) (eraseUsed (fillFreeIDs (inv.getLast hne)) inv)
          (planLoop (sortDescending inv) (eraseUsed (fillFreeIDs (inv.getLast hne)) inv))
          (fixedUpdate :: executorLoop (planLoop (sortDescending inv)
            (eraseUsed (fillFreeIDs (inv.getLast hne)) inv)))) := by
  cases inv with
  | nil => exact absurd rfl hne
  | cons a l =>
    have hl : (a :: l).getLast? = some ((a :: l).getLast hne) := List.getLast?_eq_getLast _ hne
    simp only [Init, Query, hl]
    by_cases hfree : (eraseUsed (fillFreeIDs ((a :: l).getLast hne)) (a :: l)).isEmpty = true
    · rw [if_pos hfree, if_pos hfree]
    · rw [if_neg hfree, if_neg hfree]

/-- What `Init` returns on a non-empty scan: it always terminates with a result,
whose components are the calculator's and the planner's outputs. -/
theorem Init_of_ne_nil (inv : List Int) (hne : inv ≠ []) :
    ∃ r, Init inv = some r ∧
      r.lastGuid = some (inv.getLast hne) ∧
      r.freeIDs = eraseUsed (fillFreeIDs (inv.getLast hne)) inv ∧
      r.replaceStore =
        planLoop (sortDescending inv) (eraseUsed (fillFreeIDs (inv.getLast hne)) inv) ∧
      r.statements =
        if (eraseUsed (fillFreeIDs (inv.getLast hne)) inv).isEmpty then []
        else fixedUpdate :: executorLoop r.replaceStore := by
  cases inv with
  | nil => exact absurd rfl hne
  | cons a l =>
    have hl : (a :: l).getLast? = some ((a :: l).getLast hne) := List.getLast?_eq_getLast _ hne
    simp only [Init, Query, hl]
    by_cases hfree : (eraseUsed (fillFreeIDs ((a :: l).getLast hne)) (a :: l)).isEmpty = true
    · have hnil := List.isEmpty_iff.mp hfree
      refine ⟨InitResult.noFreeIds ((a :: l).getLast hne), ?_, rfl, ?_, ?_, ?_⟩
      · simp [hfree]
      · simp [InitResult.freeIDs, hnil]
      · rw [hnil]
        cases sortDescending (a :: l) <;> simp [InitResult.replaceStore, planLoop]
      · simp [InitResult.statements, hfree]
    · refine ⟨InitResult.replaced ((a :: l).getLast hne)
        (eraseUsed (fillFreeIDs ((a :: l).getLast hne)) (a :: l))
        (planLoop (sortDescending (a :: l))
          (eraseUsed (fillFreeIDs ((a :: l).getLast hne)) (a :: l)))
        (fixedUpdate :: executorLoop (planLoop (sortDescending (a :: l))
          (eraseUsed (fillFreeIDs ((a :: l).getLast hne)) (a :: l)))), ?_, rfl, rfl, rfl, ?_⟩
      · rw [if_neg hfree]
      · simp [InitResult.statements, InitResult.replaceStore, hfree]

theorem map_fst_zip_sublist (a b : List Int) : ((a.zip b).map Prod.fst).Sublist a := by
  induction a generalizing b with
  | nil => simp
  | cons x xs ih =>
    cases b with
    | nil => simp
    | cons y ys => simpa using ih ys

theorem map_snd_zip_sublist (a b : List Int) : ((a.zip b).map Prod.snd).Sublist b := by
  induction a generalizing b with
  | nil => simp
  | cons x xs ih =>
    cases b with
    | nil => simp
    | cons y ys => simpa using ih ys

/-- On a strictly ascending non-empty scan the mapping of `Init` is the descending
inventory zipped with the free identifiers. -/
theorem Init_replaceStore (inv : List Int) (hne : inv ≠ []) (hs : inv.Sorted (· < ·)) :
    ∃ r, Init inv = some r ∧
      r.freeIDs = eraseUsed (fillFreeIDs (inv.getLast hne)) inv ∧
      r.replaceStore =
        List.zip inv.reverse (eraseUsed (fillFreeIDs (inv.getLast hne)) inv) := by
  obtain ⟨r, hr, _, hfree, hstore, _⟩ := Init_of_ne_nil inv hne
  refine ⟨r, hr, hfree, ?_⟩
  rw [hstore, sortDescending_of_sorted inv hs, planLoop_eq_zip _ _ (eraseUsed_nodup _ _)]

theorem executorRun_snd (db : DB) (store : List (Int × Int)) :
    (executorRun db store).2 = executorLoop store := by
  induction store generalizing db with
  | nil => rfl
  | cons p rest ih =>
    obtain ⟨idFrom, idTo⟩ := p
    simp only [executorRun, executorLoop]
    rw [ih]

theorem executorRun_append_fst (db : DB) (done rest : List (Int × Int)) :
    (executorRun db (done ++ rest)).1 = (executorRun (executorRun db done).1 rest).1 := by
  induction done generalizing db with
  | nil => rfl
  | cons p more ih =>
    obtain ⟨idFrom, idTo⟩ := p
    simp only [List.cons_append, executorRun]
    exact ih _

theorem executorLoop_append (done rest : List (Int × Int)) :
    executorLoop (done ++ rest) = executorLoop done ++ executorLoop rest := by
  induction done with
  | nil => rfl
  | cons p more ih =>
    obtain ⟨idFrom, idTo⟩ := p
    simp only [List.cons_append, executorLoop, List.append_assoc]
    exact congrArg _ ih

theorem updateItemInstance_of_not_mem (rows : List Int) (arg0 arg1 : Int)
    (h : arg1 ∉ rows) : updateItemInstance rows arg0 arg1 = rows := by
  unfold updateItemInstance
  rw [if_neg (fun hc => h hc.2.1)]
  conv_rhs => rw [← List.map_id rows]
  apply List.map_congr_left
  intro g hg
  have : g ≠ arg1 := fun e => h (e ▸ hg)
  simp [this]

theorem entryStatements_length (idFrom idTo : Int) :
    (entryStatements idFrom idTo).length = 11 := rfl

theorem executorLoop_length (store : List (Int × Int)) :
    (executorLoop store).length = 11 * store.length := by
  induction store with
  | nil => rfl
  | cons p rest ih =>
    obtain ⟨idFrom, idTo⟩ := p
    simp only [executorLoop, List.length_append, entryStatements_length, ih, List.length_cons]
    omega

theorem le_getLast_of_sorted (inv : List Int) (hne : inv ≠ []) (hs : inv.Sorted (· < ·)) :
    ∀ x ∈ inv, x ≤ inv.getLast hne := by
  induction inv with
  | nil => exact absurd rfl hne
  | cons a l ih =>
    cases l with
    | nil =>
      intro x hx
      simp at hx
      simp [hx]
    | cons b t =>
      have hs2 := List.pairwise_cons.mp hs
      have ih2 := ih (List.cons_ne_nil b t) hs2.2
      rw [List.getLast_cons (List.cons_ne_nil b t)]
      intro x hx
      rcases List.mem_cons.mp hx with rfl | hx
      · have h1 := hs2.1 b (List.mem_cons_self b t)
        have h2 := ih2 b (List.mem_cons_self b t)
        omega
      · exact ih2 x hx

theorem denseInventory_succ (n : Nat) :
    denseInventory (n + 1) = denseInventory n ++ [((n : Int) + 1)] := by
  unfold denseInventory
  rw [List.range'_concat, List.map_append]
  simp
  omega

theorem mem_denseInventory (N : Nat) (x : Int) :
    x ∈ denseInventory N ↔ 1 ≤ x ∧ x ≤ N := by
  simp only [denseInventory, List.mem_map, List.mem_range'_1]
  constructor
  · rintro ⟨k, hk, rfl⟩
    omega
  · rintro ⟨h1, h2⟩
    exact ⟨x.toNat, by omega, by omega⟩

/-- On the inventory `1..N` the run ends at line 37 (`N = 0`) or at line 63. -/
theorem Init_denseInventory (N : Nat) :
    Init (denseInventory N)
      = some (if N = 0 then InitResult.noData else InitResult.noFreeIds (N : Int)) := by
  cases N with
  | zero => rfl
  | succ n =>
    have hne : denseInventory (n + 1) ≠ [] := by
      rw [denseInventory_succ]
      simp
    have hlast : (denseInventory (n + 1)).getLast hne = (n : Int) + 1 := by
      simp [denseInventory_succ]
    have hnil : eraseUsed (fillFreeIDs ((n : Int) + 1)) (denseInventory (n + 1)) = [] := by
      rw [List.eq_nil_iff_forall_not_mem]
      intro x hx
      rw [mem_eraseUsed, mem_denseInventory] at hx
      apply hx.2.2
      push_cast
      omega
    rw [Init_eq _ hne, hlast, hnil, if_neg (Nat.succ_ne_zero n)]
    simp

theorem denseInventory_sorted (N : Nat) : (denseInventory N).Sorted (· ≤ ·) := by
  unfold denseInventory
  have h : (List.range' 1 N).Pairwise (· < ·) := List.pairwise_lt_range' 1 N
  refine List.Pairwise.map _ ?_ h
  intro a b hab
  omega

theorem denseInventory_length (N : Nat) : (denseInventory N).length = N := by
  simp [denseInventory]

/-! ## The executor on the owning table -/

theorem applyStatements_updDependent (db : DB) (ds : List (String × String))
    (idTo idFrom : Int) :
    (applyStatements db
      (ds.map (fun d => Statement.updDependent d.1 d.2 idTo idFrom))).item_instance
      = db.item_instance := by
  induction ds generalizing db with
  | nil => rfl
  | cons d ds ih =>
    simp only [applyStatements, List.map_cons, List.foldl_cons] at ih ⊢
    rw [ih]
    rfl

theorem applyStatements_entryStatements (db : DB) (idFrom idTo : Int) :
    (applyStatements db (entryStatements idFrom idTo)).item_instance
      = updateItemInstance db.item_instance idTo idFrom := by
  have h := applyStatements_updDependent
    (applyStatement db (Statement.updItemInstance idTo idFrom)) cleanDBTables idTo idFrom
  simp only [applyStatements, entryStatements, List.foldl_cons] at h ⊢
  rw [h]
  rfl

/-- On the owning table the executor loop is the fold of the owning-table updates. -/
theorem executorRun_item_instance (db : DB) (store : List (Int × Int)) :
    (executorRun db store).1.item_instance
      = store.foldl (fun rows p => updateItemInstance rows p.2 p.1) db.item_instance := by
  induction store generalizing db with
  | nil => rfl
  | cons p rest ih =>
    obtain ⟨idFrom, idTo⟩ := p
    simp only [executorRun, List.foldl_cons]
    rw [ih, applyStatements_entryStatements]

theorem updateItemInstance_fresh (rows : List Int) (idTo idFrom : Int) (h : idTo ∉ rows) :
    updateItemInstance rows idTo idFrom
      = rows.map (fun g => if g = idFrom then idTo else g) := by
  unfold updateItemInstance
  rw [if_neg (fun hc => h hc.2.2)]

/-- Owning-table updates whose targets are distinct and absent from the table keep
the rows distinct and as many, and leave only unmoved identifiers and targets. -/
theorem foldl_updateItemInstance (store : List (Int × Int)) (rows : List Int)
    (hnd : rows.Nodup) (hfresh : ∀ p ∈ store, p.2 ∉ rows)
    (hto : (store.map Prod.snd).Nodup) :
    (store.foldl (fun rows p => updateItemInstance rows p.2 p.1) rows).Nodup ∧
    (store.foldl (fun rows p => updateItemInstance rows p.2 p.1) rows).length = rows.length ∧
    ∀ x ∈ store.foldl (fun rows p => updateItemInstance rows p.2 p.1) rows,
      (x ∈ rows ∧ x ∉ store.map Prod.fst) ∨ x ∈ store.map Prod.snd := by
  induction store generalizing rows with
  | nil =>
    refine ⟨hnd, rfl, ?_⟩
    intro x hx
    exact Or.inl ⟨hx, by simp⟩
  | cons p rest ih =>
    obtain ⟨f, t⟩ := p
    have ht : t ∉ rows := hfresh (f, t) (List.mem_cons_self _ _)
    rw [List.map_cons, List.nodup_cons] at hto
    have hmem1 : ∀ x ∈ updateItemInstance rows t f, x = t ∨ (x ∈ rows ∧ x ≠ f) := by
      intro x hx
      rw [updateItemInstance_fresh rows t f ht, List.mem_map] at hx
      obtain ⟨g, hg, rfl⟩ := hx
      by_cases hgf : g = f
      · simp [hgf]
      · simp [hgf, hg]
    have hnd1 : (updateItemInstance rows t f).Nodup := by
      rw [updateItemInstance_fresh rows t f ht]
      refine List.Nodup.map_on ?_ hnd
      intro g1 hg1 g2 hg2 heq
      by_cases h1 : g1 = f <;> by_cases h2 : g2 = f
      · rw [h1, h2]
      · simp only [h1, h2, if_true, if_false] at heq
        exact absurd (heq ▸ hg2) ht
      · simp only [h1, h2, if_true, if_false] at heq
        exact absurd (heq ▸ hg1) ht
      · simpa [h1, h2] using heq
    have hlen1 : (updateItemInstance rows t f).length = rows.length := by
      rw [updateItemInstance_fresh rows t f ht, List.length_map]
    have hfresh1 : ∀ p ∈ rest, p.2 ∉ updateItemInstance rows t f := by
      intro p hp hc
      rcases hmem1 _ hc with h | h
      · have hp2 : p.2 ∈ rest.map Prod.snd := List.mem_map_of_mem Prod.snd hp
        rw [h] at hp2
        exact hto.1 hp2
      · exact hfresh p (List.mem_cons_of_mem _ hp) h.1
    obtain ⟨r1, r2, r3⟩ := ih (updateItemInstance rows t f) hnd1 hfresh1 hto.2
    simp only [List.foldl_cons]
    refine ⟨r1, by rw [r2, hlen1], ?_⟩
    intro x hx
    rcases r3 x hx with ⟨hx1, hx2⟩ | hx2
    · rcases hmem1 x hx1 with h | h
      · exact Or.inr (by simp [h])
      · refine Or.inl ⟨h.1, ?_⟩
        simp only [List.map_cons, List.mem_cons, not_or]
        exact ⟨h.2, hx2⟩
    · exact Or.inr (List.mem_cons_of_mem _ hx2)

/-! ## The executor on the dependent tables -/

theorem applyStatements_updDependent_dependent (db : DB) (ds : List (String × String))
    (idTo idFrom : Int) (tb col : String) :
    (applyStatements db
      (ds.map (fun d => Statement.updDependent d.1 d.2 idTo idFrom))).dependent tb col
      = if (tb, col) ∈ ds then
          (db.dependent tb col).map (fun g => if g = idFrom then idTo else g)
        else db.dependent tb col := by
  induction ds generalizing db with
  | nil => simp [applyStatements]
  | cons d ds ih =>
    have h := ih (applyStatement db (Statement.updDependent d.1 d.2 idTo idFrom))
    simp only [applyStatements, List.map_cons, List.foldl_cons] at h ⊢
    rw [h]
    have hidem : ∀ l : List Int,
        (l.map (fun g => if g = idFrom then idTo else g)).map
          (fun g => if g = idFrom then idTo else g)
        = l.map (fun g => if g = idFrom then idTo else g) := by
      intro l
      rw [List.map_map]
      apply List.map_congr_left
      intro g _
      by_cases hg : g = idFrom
      · simp [hg]
      · simp [hg]
    obtain ⟨d1, d2⟩ := d
    by_cases hd : tb = d1 ∧ col = d2
    · obtain ⟨rfl, rfl⟩ := hd
      by_cases hmem : (tb, col) ∈ ds
      · simp [applyStatement, hmem, hidem]
      · simp [applyStatement, hmem]
    · have hne : (tb, col) ≠ (d1, d2) := fun e => hd ⟨(Prod.mk.inj e).1, (Prod.mk.inj e).2⟩
      by_cases hmem : (tb, col) ∈ ds
      · simp [applyStatement, hmem, hd]
      · simp [applyStatement, hmem, hd, hne]

theorem applyStatements_entryStatements_dependent (db : DB) (idFrom idTo : Int)
    (tb col : String) (hreg : (tb, col) ∈ cleanDBTables) :
    (applyStatements db (entryStatements idFrom idTo)).dependent tb col
      = (db.dependent tb col).map (fun g => if g = idFrom then idTo else g) := by
  have h := applyStatements_updDependent_dependent
    (applyStatement db (Statement.updItemInstance idTo idFrom)) cleanDBTables idTo idFrom
    tb col
  rw [if_pos hreg] at h
  simp only [applyStatements, entryStatements, List.foldl_cons] at h ⊢
  rw [h]
  rfl

/-- On a registered dependent column the executor loop renames every value by the
entries in order. -/
theorem executorRun_dependent (db : DB) (store : List (Int × Int)) (tb col : String)
    (hreg : (tb, col) ∈ cleanDBTables) :
    (executorRun db store).1.dependent tb col
      = (db.dependent tb col).map (renamed store) := by
  induction store generalizing db with
  | nil => simp [executorRun, renamed]
  | cons p rest ih =>
    obtain ⟨idFrom, idTo⟩ := p
    simp only [executorRun]
    rw [ih, applyStatements_entryStatements_dependent db idFrom idTo tb col hreg,
      List.map_map]
    apply List.map_congr_left
    intro g _
    rfl

/-- Owning-table updates whose targets are distinct and absent from the table rename
every row by the entries in order. -/
theorem foldl_updateItemInstance_eq_map (store : List (Int × Int)) (rows : List Int)
    (hfresh : ∀ p ∈ store, p.2 ∉ rows) (hto : (store.map Prod.snd).Nodup) :
    store.foldl (fun rows p => updateItemInstance rows p.2 p.1) rows
      = rows.map (renamed store) := by
  induction store generalizing rows with
  | nil => simp [renamed]
  | cons p rest ih =>
    obtain ⟨f, t⟩ := p
    have ht : t ∉ rows := hfresh (f, t) (List.mem_cons_self _ _)
    rw [List.map_cons, List.nodup_cons] at hto
    have hfresh1 : ∀ p ∈ rest, p.2 ∉ updateItemInstance rows t f := by
      intro p hp hc
      rw [updateItemInstance_fresh rows t f ht, List.mem_map] at hc
      obtain ⟨g, hg, hgp⟩ := hc
      by_cases hgf : g = f
      · rw [if_pos hgf] at hgp
        have hp2 : p.2 ∈ rest.map Prod.snd := List.mem_map_of_mem Prod.snd hp
        rw [← hgp] at hp2
        exact hto.1 hp2
      · rw [if_neg hgf] at hgp
        exact hfresh p (List.mem_cons_of_mem _ hp) (hgp ▸ hg)
    simp only [List.foldl_cons]
    rw [ih _ hfresh1 hto.2, updateItemInstance_fresh rows t f ht, List.map_map]
    apply List.map_congr_left
    intro g _
    rfl

theorem renamed_of_not_from (store : List (Int × Int)) (g : Int)
    (h : g ∉ store.map Prod.fst) : renamed store g = g := by
  induction store with
  | nil => rfl
  | cons p rest ih =>
    obtain ⟨f, t⟩ := p
    simp only [List.map_cons, List.mem_cons, not_or] at h
    simp only [renamed]
    rw [if_neg h.1]
    exact ih h.2

theorem renamed_from (store : List (Int × Int)) (hfrom : (store.map Prod.fst).Nodup)
    (hdisj : ∀ p ∈ store, p.2 ∉ store.map Prod.fst) (f t : Int) (h : (f, t) ∈ store) :
    renamed store f = t := by
  induction store with
  | nil => simp at h
  | cons p rest ih =>
    obtain ⟨f1, t1⟩ := p
    rw [List.map_cons, List.nodup_cons] at hfrom
    have hdisj2 : ∀ p ∈ rest, p.2 ∉ rest.map Prod.fst := by
      intro p hp hc
      exact hdisj p (List.mem_cons_of_mem _ hp) (List.mem_cons_of_mem _ hc)
    rcases List.mem_cons.mp h with h | h
    · obtain ⟨rfl, rfl⟩ := Prod.mk.inj h
      simp only [renamed, if_true]
      apply renamed_of_not_from
      intro hc
      exact hdisj (f, t) (List.mem_cons_self _ _) (List.mem_cons_of_mem _ hc)
    · have hf : f ∈ rest.map Prod.fst := List.mem_map_of_mem Prod.fst h
      have hne : f ≠ f1 := fun e => hfrom.1 (e ▸ hf)
      simp only [renamed]
      rw [if_neg hne]
      exact ih hfrom.2 hdisj2 h

/-- Every statement of the executor loop carries the `from` and the `to` of one
entry of the mapping. -/
theorem executorLoop_planned (store : List (Int × Int)) :
    ∀ s ∈ executorLoop store, ∃ p ∈ store, s.whereId = p.1 ∧ s.setId = p.2 := by
  induction store with
  | nil => simp [executorLoop]
  | cons p rest ih =>
    obtain ⟨f, t⟩ := p
    intro s hs
    simp only [executorLoop, List.mem_append] at hs
    rcases hs with hs | hs
    · refine ⟨(f, t), List.mem_cons_self _ _, ?_⟩
      simp only [entryStatements, List.mem_cons, List.mem_map] at hs
      rcases hs with rfl | ⟨d, _, rfl⟩
      · exact ⟨rfl, rfl⟩
      · exact ⟨rfl, rfl⟩
    · obtain ⟨p, hp, hp2⟩ := ih s hs
      exact ⟨p, List.mem_cons_of_mem _ hp, hp2⟩

/-- The executor loop alone, on the mapping `Init` plans, keeps the references: the
owning rows and every registered dependent column are renamed by one and the same
function, which sends each `from` to its `to`, fixes every other identifier, and
leaves the owning rows pairwise distinct. -/
theorem executor_loop_keeps_references (inv : List Int) (hne : inv ≠ [])
    (hs : inv.Sorted (· < ·)) (deps : String → String → List Int) (tb col : String)
    (hreg : (tb, col) ∈ cleanDBTables) :
    ∃ r, Init inv = some r ∧
      (executorRun { item_instance := inv, dependent := deps }
          r.replaceStore).1.item_instance = inv.map (renamed r.replaceStore) ∧
      (executorRun { item_instance := inv, dependent := deps }
          r.replaceStore).1.dependent tb col = (deps tb col).map (renamed r.replaceStore) ∧
      (inv.map (renamed r.replaceStore)).Nodup ∧
      (∀ p ∈ r.replaceStore, renamed r.replaceStore p.1 = p.2) ∧
      (∀ g, g ∉ r.replaceStore.map Prod.fst → renamed r.replaceStore g = g) := by
  obtain ⟨r, hr, _, hstore⟩ := Init_replaceStore inv hne hs
  have hnd : inv.Nodup := hs.imp (fun h => ne_of_lt h)
  have hmem : ∀ p ∈ r.replaceStore, p.1 ∈ inv ∧ p.2 ∉ inv := by
    rintro ⟨f, t⟩ hp
    rw [hstore] at hp
    have h := List.of_mem_zip hp
    exact ⟨List.mem_reverse.mp h.1, ((mem_eraseUsed _ _ _).mp h.2).2.2⟩
  have hto : (r.replaceStore.map Prod.snd).Nodup := by
    rw [hstore]
    exact (eraseUsed_nodup _ _).sublist (map_snd_zip_sublist _ _)
  have hfrom : (r.replaceStore.map Prod.fst).Nodup := by
    rw [hstore]
    exact (List.nodup_reverse.mpr hnd).sublist (map_fst_zip_sublist _ _)
  have hdisj : ∀ p ∈ r.replaceStore, p.2 ∉ r.replaceStore.map Prod.fst := by
    intro p hp hc
    obtain ⟨q, hq, hqp⟩ := List.mem_map.mp hc
    exact (hmem p hp).2 (hqp ▸ (hmem q hq).1)
  have hrows := executorRun_item_instance
    { item_instance := inv, dependent := deps } r.replaceStore
  simp only at hrows
  have hmap := foldl_updateItemInstance_eq_map r.replaceStore inv
    (fun p hp => (hmem p hp).2) hto
  have hnd2 := (foldl_updateItemInstance r.replaceStore inv hnd
    (fun p hp => (hmem p hp).2) hto).1
  rw [hmap] at hnd2
  refine ⟨r, hr, hrows.trans hmap, ?_, hnd2, ?_, ?_⟩
  · exact executorRun_dependent _ _ tb col hreg
  · rintro ⟨f, t⟩ hp
    exact renamed_from r.replaceStore hfrom hdisj f t hp
  · intro g hg
    exact renamed_of_not_from _ g hg

/-! ## Counting identifiers below and above a value -/

theorem countP_lt_gt_eq (l : List Int) (f : Int) :
    l.countP (fun x => decide (x < f)) + l.countP (fun x => decide (f < x)) + l.count f
      = l.length := by
  induction l with
  | nil => rfl
  | cons a l ih =>
    rw [List.countP_cons, List.countP_cons, List.count_cons, List.length_cons]
    rcases lt_trichotomy a f with h | h | h
    · have h2 : ¬ f < a := by omega
      have h3 : ¬ a = f := by omega
      simp [h, h2, h3]
      omega
    · subst h
      simp
      omega
    · have h2 : ¬ a < f := by omega
      have h3 : ¬ a = f := by omega
      simp [h, h2, h3]
      omega

theorem countP_lt_succ (l : List Int) (t : Int) :
    l.countP (fun x => decide (x < t + 1)) = l.countP (fun x => decide (x < t)) + l.count t := by
  induction l with
  | nil => rfl
  | cons a l ih =>
    rw [List.countP_cons, List.countP_cons, List.count_cons, ih]
    rcases lt_trichotomy a t with h | h | h
    · have h2 : a < t + 1 := by omega
      have h3 : ¬ a = t := by omega
      simp [h, h2, h3]
      omega
    · subst h
      simp
      omega
    · have h2 : ¬ a < t + 1 := by omega
      have h3 : ¬ a < t := by omega
      have h4 : ¬ a = t := by omega
      simp [h2, h3, h4]

/-- Below any `t ≤ max_used + 1`, the free identifiers and the used ones together
are exactly `1, ..., t - 1`. -/
theorem countP_free_add_used (inv : List Int) (hne : inv ≠ []) (hs : inv.Sorted (· < ·))
    (hpos : ∀ x ∈ inv, 0 < x) (T : Nat) (hT : (T : Int) ≤ inv.getLast hne) :
    (eraseUsed (fillFreeIDs (inv.getLast hne)) inv).countP (fun x => decide (x < (T : Int) + 1))
      + inv.countP (fun x => decide (x < (T : Int) + 1)) = T := by
  induction T with
  | zero =>
    have h1 : (eraseUsed (fillFreeIDs (inv.getLast hne)) inv).countP
        (fun x => decide (x < ((0 : Nat) : Int) + 1)) = 0 := by
      rw [List.countP_eq_zero]
      intro a ha
      rw [mem_eraseUsed] at ha
      simp
      omega
    have h2 : inv.countP (fun x => decide (x < ((0 : Nat) : Int) + 1)) = 0 := by
      rw [List.countP_eq_zero]
      intro a ha
      have := hpos a ha
      simp
      omega
    rw [h1, h2]
  | succ n ih =>
    have hn : (n : Int) ≤ inv.getLast hne := by push_cast at hT; omega
    have ih2 := ih hn
    have hcast : ((n + 1 : Nat) : Int) + 1 = ((n : Int) + 1) + 1 := by push_cast; ring
    rw [hcast, countP_lt_succ, countP_lt_succ inv]
    have hone : (eraseUsed (fillFreeIDs (inv.getLast hne)) inv).count ((n : Int) + 1)
        + inv.count ((n : Int) + 1) = 1 := by
      by_cases hmem : ((n : Int) + 1) ∈ inv
      · rw [List.count_eq_one_of_mem (hs.imp (fun h => ne_of_lt h)) hmem,
          List.count_eq_zero_of_not_mem]
        intro hc
        exact ((mem_eraseUsed _ _ _).mp hc).2.2 hmem
      · have hlast : ((n : Int) + 1) ≠ inv.getLast hne :=
          fun e => hmem (e ▸ List.getLast_mem hne)
        have hfree : ((n : Int) + 1) ∈ eraseUsed (fillFreeIDs (inv.getLast hne)) inv := by
          rw [mem_eraseUsed]
          push_cast at hT
          exact ⟨by omega, by omega, hmem⟩
        rw [List.count_eq_one_of_mem (eraseUsed_nodup _ _) hfree,
          List.count_eq_zero_of_not_mem hmem]
    omega

theorem countP_free_add_used_int (inv : List Int) (hne : inv ≠ [])
    (hs : inv.Sorted (· < ·)) (hpos : ∀ x ∈ inv, 0 < x) (t : Int) (h1 : 1 ≤ t)
    (h2 : t ≤ inv.getLast hne + 1) :
    (((eraseUsed (fillFreeIDs (inv.getLast hne)) inv).countP (fun x => decide (x < t))
      + inv.countP (fun x => decide (x < t)) : Nat) : Int) = t - 1 := by
  have h := countP_free_add_used inv hne hs hpos (t - 1).toNat (by omega)
  have ht : (((t - 1).toNat : Nat) : Int) + 1 = t := by omega
  rw [ht] at h
  rw [h]
  omega

/-- In a zip of a descending list with an ascending one, an entry has as many
firsts above its first as seconds below its second. -/
theorem countP_zip_entry (a b : List Int) (ha : a.Pairwise (· > ·)) (hb : b.Pairwise (· < ·))
    (f t : Int) (h : (f, t) ∈ List.zip a b) :
    a.countP (fun x => decide (f < x)) = b.countP (fun x => decide (x < t)) := by
  induction a generalizing b with
  | nil => simp at h
  | cons x xs ih =>
    cases b with
    | nil => simp at h
    | cons y ys =>
      have ha2 := List.pairwise_cons.mp ha
      have hb2 := List.pairwise_cons.mp hb
      rw [List.zip_cons_cons, List.mem_cons] at h
      rcases h with h | h
      · obtain ⟨rfl, rfl⟩ := Prod.mk.inj h
        have e1 : (f :: xs).countP (fun x => decide (f < x)) = 0 := by
          rw [List.countP_eq_zero]
          intro c hc
          rcases List.mem_cons.mp hc with rfl | hc
          · simp
          · have := ha2.1 c hc
            simp
            omega
        have e2 : (t :: ys).countP (fun x => decide (x < t)) = 0 := by
          rw [List.countP_eq_zero]
          intro c hc
          rcases List.mem_cons.mp hc with rfl | hc
          · simp
          · have := hb2.1 c hc
            simp
            omega
        rw [e1, e2]
      · have hm := List.of_mem_zip h
        have hx : f < x := ha2.1 f hm.1
        have hy : y < t := hb2.1 t hm.2
        rw [List.countP_cons, List.countP_cons, ih ys ha2.2 hb2.2 h]
        simp [hx, hy]

/-- An element of the descending list that the zip leaves out has at least as many
elements above it as the other list is long. -/
theorem length_le_countP_of_not_zipped (a b : List Int) (ha : a.Pairwise (· > ·))
    (x : Int) (hx : x ∈ a) (hnot : x ∉ (List.zip a b).map Prod.fst) :
    b.length ≤ a.countP (fun y => decide (x < y)) := by
  induction a generalizing b with
  | nil => simp at hx
  | cons y ys ih =>
    cases b with
    | nil => simp
    | cons t ts =>
      have ha2 := List.pairwise_cons.mp ha
      rw [List.zip_cons_cons, List.map_cons, List.mem_cons, not_or] at hnot
      rcases List.mem_cons.mp hx with rfl | hxs
      · exact absurd rfl hnot.1
      · have hlt : x < y := ha2.1 x hxs
        have := ih ts ha2.2 hxs hnot.2
        rw [List.countP_cons, List.length_cons]
        simp [hlt]
        omega

/-- An entry of the zipped plan moves its identifier down exactly when its target is
at most the number of identifiers. -/
theorem entry_down_iff (inv : List Int) (hne : inv ≠ []) (hs : inv.Sorted (· < ·))
    (hpos : ∀ x ∈ inv, 0 < x) (f t : Int)
    (h : (f, t) ∈ List.zip inv.reverse (eraseUsed (fillFreeIDs (inv.getLast hne)) inv)) :
    1 ≤ t ∧ t < inv.getLast hne ∧ t ≠ f ∧ (t < f ↔ t ≤ inv.length) := by
  have hm := List.of_mem_zip h
  have hf : f ∈ inv := List.mem_reverse.mp hm.1
  have ht := (mem_eraseUsed _ _ _).mp hm.2
  have hrev : inv.reverse.Pairwise (· > ·) := List.pairwise_reverse.mpr hs
  have hc := countP_zip_entry inv.reverse _ hrev (eraseUsed_sorted _ _) f t h
  rw [List.countP_reverse] at hc
  have htri := countP_lt_gt_eq inv f
  rw [List.count_eq_one_of_mem (hs.imp (fun h => ne_of_lt h)) hf] at htri
  have hpart := countP_free_add_used_int inv hne hs hpos t ht.1 (by omega)
  have hne2 : t ≠ f := fun e => ht.2.2 (e ▸ hf)
  refine ⟨ht.1, by omega, hne2, ?_⟩
  constructor
  · intro hlt
    have hmono : inv.countP (fun x => decide (x < t)) ≤ inv.countP (fun x => decide (x < f)) := by
      apply List.countP_mono_left
      intro x _ hx
      simp only [decide_eq_true_eq] at hx ⊢
      omega
    push_cast at hpart
    omega
  · intro hle
    by_contra hnlt
    have hft : f + 1 ≤ t := by omega
    have hmono : inv.countP (fun x => decide (x < f + 1))
        ≤ inv.countP (fun x => decide (x < t)) := by
      apply List.countP_mono_left
      intro x _ hx
      simp only [decide_eq_true_eq] at hx ⊢
      omega
    rw [countP_lt_succ, List.count_eq_one_of_mem (hs.imp (fun h => ne_of_lt h)) hf] at hmono
    push_cast at hpart
    omega

/-- An identifier the zipped plan does not move is at most the number of
identifiers. -/
theorem unmoved_le_length (inv : List Int) (hne : inv ≠ []) (hs : inv.Sorted (· < ·))
    (hpos : ∀ x ∈ inv, 0 < x) (x : Int) (hx : x ∈ inv)
    (hnot : x ∉ (List.zip inv.reverse
      (eraseUsed (fillFreeIDs (inv.getLast hne)) inv)).map Prod.fst) :
    x ≤ inv.length := by
  have hrev : inv.reverse.Pairwise (· > ·) := List.pairwise_reverse.mpr hs
  have hlen := length_le_countP_of_not_zipped inv.reverse _ hrev x
    (List.mem_reverse.mpr hx) hnot
  rw [List.countP_reverse] at hlen
  have htri := countP_lt_gt_eq inv x
  rw [List.count_eq_one_of_mem (hs.imp (fun h => ne_of_lt h)) hx] at htri
  have hxl := le_getLast_of_sorted inv hne hs x hx
  have hpart := countP_free_add_used_int inv hne hs hpos x (by have := hpos x hx; omega)
    (by omega)
  have hfree := List.countP_le_length (fun y => decide (y < x))
    (l := eraseUsed (fillFreeIDs (inv.getLast hne)) inv)
  push_cast at hpart
  omega

/-! ## The owning table after the executor loop and after a whole pass -/

theorem scan_of_sorted (inv : List Int) (hs : inv.Sorted (· < ·)) : scan inv = inv :=
  List.Sorted.insertionSort_eq (hs.imp (fun h => le_of_lt h))

theorem applyStatements_append (db : DB) (a b : List Statement) :
    applyStatements db (a ++ b) = applyStatements (applyStatements db a) b := by
  simp [applyStatements, List.foldl_append]

/-- The tables the executor loop ends with are those reached by applying its
submitted statements in order. -/
theorem executorRun_fst (db : DB) (store : List (Int × Int)) :
    (executorRun db store).1 = applyStatements db (executorLoop store) := by
  induction store generalizing db with
  | nil => rfl
  | cons p rest ih =>
    obtain ⟨idFrom, idTo⟩ := p
    simp only [executorRun, executorLoop]
    rw [ih, applyStatements_append]

/-- When every planned entry moves its identifier down, the executor loop run on
tables whose owning rows are the inventory leaves the owning identifiers
`1, ..., len(inventory)`. -/
theorem executorRun_dense_of_all_down (inv : List Int) (hne : inv ≠ [])
    (hs : inv.Sorted (· < ·)) (hpos : ∀ x ∈ inv, 0 < x) (db : DB)
    (hdb : db.item_instance = inv) (r : InitResult) (hr : Init inv = some r)
    (hdown : ∀ p ∈ r.replaceStore, p.2 < p.1) :
    scan (executorRun db r.replaceStore).1.item_instance = denseInventory inv.length := by
  obtain ⟨r0, hr0, _, hstore⟩ := Init_replaceStore inv hne hs
  rw [hr] at hr0
  cases hr0
  have hnd : inv.Nodup := hs.imp (fun h => ne_of_lt h)
  have hfresh : ∀ p ∈ r.replaceStore, p.2 ∉ inv := by
    rintro ⟨f, t⟩ hp
    rw [hstore] at hp
    exact ((mem_eraseUsed _ _ _).mp (List.of_mem_zip hp).2).2.2
  have hto : (r.replaceStore.map Prod.snd).Nodup := by
    rw [hstore]
    exact (eraseUsed_nodup _ _).sublist (map_snd_zip_sublist _ _)
  obtain ⟨h1, h2, h3⟩ := foldl_updateItemInstance r.replaceStore inv hnd hfresh hto
  have hrows := executorRun_item_instance db r.replaceStore
  rw [hdb] at hrows
  rw [← hrows] at h1 h2 h3
  have hsub : (executorRun db r.replaceStore).1.item_instance
      ⊆ denseInventory inv.length := by
    intro x hx
    rw [mem_denseInventory]
    rcases h3 x hx with ⟨hx1, hx2⟩ | hx2
    · rw [hstore] at hx2
      exact ⟨hpos x hx1, unmoved_le_length inv hne hs hpos x hx1 hx2⟩
    · obtain ⟨⟨f, t⟩, hp, rfl⟩ := List.mem_map.mp hx2
      have hd := hdown (f, t) hp
      rw [hstore] at hp
      have he := entry_down_iff inv hne hs hpos f t hp
      exact ⟨he.1, he.2.2.2.mp hd⟩
  have hperm := (List.subperm_of_subset h1 hsub).perm_of_length_le
    (by rw [denseInventory_length, h2])
  exact List.eq_of_perm_of_sorted ((List.perm_insertionSort _ _).trans hperm)
    (List.sorted_insertionSort _ _) (denseInventory_sorted _)

/-- On an inventory without the identifier `1` the update of lines 86-88 matches no
row, so the owning rows a whole pass leaves are those the executor loop leaves. -/
theorem pass_item_instance_of_one_not_mem (inv : List Int) (hne : inv ≠ [])
    (hs : inv.Sorted (· < ·)) (hone : (1 : Int) ∉ inv)
    (deps : String → String → List Int) (r : InitResult) (hr : Init inv = some r) :
    ∃ db db1, pass { item_instance := inv, dependent := deps } = some db ∧
      db1.item_instance = inv ∧
      db.item_instance = (executorRun db1 r.replaceStore).1.item_instance := by
  obtain ⟨r0, hr0, _, hfree, hstore, hstmts⟩ := Init_of_ne_nil inv hne
  rw [hr] at hr0
  cases hr0
  have hpass : pass { item_instance := inv, dependent := deps }
      = some (applyStatements { item_instance := inv, dependent := deps } r.statements) := by
    simp only [pass]
    rw [scan_of_sorted inv hs, hr]
    rfl
  by_cases hempty : (eraseUsed (fillFreeIDs (inv.getLast hne)) inv).isEmpty = true
  · rw [if_pos hempty] at hstmts
    have hnil : r.replaceStore = [] := by
      rw [hstore, List.isEmpty_iff.mp hempty]
      cases sortDescending inv <;> rfl
    refine ⟨_, { item_instance := inv, dependent := deps }, hpass, rfl, ?_⟩
    rw [hstmts, hnil]
    rfl
  · rw [if_neg hempty] at hstmts
    refine ⟨_, applyStatement { item_instance := inv, dependent := deps } fixedUpdate,
      hpass, ?_, ?_⟩
    · exact updateItemInstance_of_not_mem inv 3631 1 hone
    · rw [hstmts, executorRun_fst]
      rfl

/-! ## Positions in the submitted sequence -/

theorem executorLoop_eq_flatten (store : List (Int × Int)) :
    executorLoop store = (store.map (fun p => statedEntryOrder p.1 p.2)).flatten := by
  induction store with
  | nil => rfl
  | cons p rest ih =>
    obtain ⟨idFrom, idTo⟩ := p
    rw [executorLoop, ih]
    rfl

/-- The statement at position `11 * i + k` of the loop's submissions, `k < 11`, is
the `k`-th statement of the `i`-th entry. -/
theorem executorLoop_getElem_opt (store : List (Int × Int)) (i k : Nat) (hk : k < 11) :
    (executorLoop store)[11 * i + k]?
      = (store[i]?).bind (fun p => (entryStatements p.1 p.2)[k]?) := by
  induction store generalizing i with
  | nil => simp [executorLoop]
  | cons p rest ih =>
    obtain ⟨idFrom, idTo⟩ := p
    cases i with
    | zero =>
      rw [executorLoop, Nat.mul_zero, Nat.zero_add,
        List.getElem?_append_left (by rw [entryStatements_length]; exact hk)]
      simp
    | succ n =>
      have hle : (entryStatements idFrom idTo).length ≤ 11 * (n + 1) + k := by
        rw [entryStatements_length]
        omega
      have hidx : 11 * (n + 1) + k - (entryStatements idFrom idTo).length = 11 * n + k := by
        rw [entryStatements_length]
        omega
      rw [executorLoop, List.getElem?_append_right hle, hidx, ih n]
      simp

theorem Init_statements_tail (rows : List Int) :
    (Init rows).map (fun r => r.statements.tail)
      = (Init rows).map (fun r => executorLoop r.replaceStore) := by
  cases rows with
  | nil => rfl
  | cons a l =>
    rw [Init_eq (a :: l) (List.cons_ne_nil a l)]
    by_cases hfree : (eraseUsed (fillFreeIDs ((a :: l).getLast (List.cons_ne_nil a l)))
        (a :: l)).isEmpty = true
    · rw [if_pos hfree]
      rfl
    · rw [if_neg hfree]
      rfl

/-! ## The claims -/

/-- C1 (planner result): on every non-empty strictly ascending inventory of positive
integers `Init` returns, and its mapping `replaceStore` is the inventory read from its
largest identifier downwards (a strictly descending list) zipped with the strictly
ascending list of the free slots (the integers of `[1, max_used - 1]` absent from
the inventory); its length is the smaller of the two lengths. -/
theorem planner_result (inv : List Int) (hne : inv ≠ []) (hs : inv.Sorted (· < ·))
    (_hpos : ∀ x ∈ inv, 0 < x) :
    ∃ r, Init inv = some r ∧
      r.replaceStore = List.zip inv.reverse (specFreeSlots inv (inv.getLast hne)) ∧
      r.replaceStore.length =
        min inv.length (specFreeSlots inv (inv.getLast hne)).length ∧
      inv.reverse.Sorted (· > ·) ∧
      (specFreeSlots inv (inv.getLast hne)).Sorted (· < ·) := by
  obtain ⟨r, hr, _, hstore⟩ := Init_replaceStore inv hne hs
  rw [eraseUsed_eq_specFreeSlots] at hstore
  refine ⟨r, hr, hstore, ?_, List.pairwise_reverse.mpr hs, ?_⟩
  · rw [hstore, List.length_zip, List.length_reverse]
  · rw [← eraseUsed_eq_specFreeSlots]
    exact eraseUsed_sorted _ _

theorem planner_result_witness :
    ∃ r, Init [1, 2, 4, 7] = some r ∧ r.replaceStore = [(7, 3), (4, 5), (2, 6)] := by
  obtain ⟨r, hr, hstore, _⟩ :=
    planner_result [1, 2, 4, 7] (by decide) (by decide) (by decide)
  exact ⟨r, hr, by rw [hstore]; decide⟩

/-- C2 (free-slot calculator): on every non-empty strictly ascending inventory of
positive integers with last element `max_used`, `Init` returns and its `freeIDs` is
strictly ascending, holds `x` exactly when `1 ≤ x ≤ max_used - 1` and `x` is not in
the inventory, and holds no value at or above `max_used`. -/
theorem free_slot_calculator (inv : List Int) (hne : inv ≠ [])
    (_hs : inv.Sorted (· < ·)) (_hpos : ∀ x ∈ inv, 0 < x) :
    ∃ r, Init inv = some r ∧
      r.freeIDs.Sorted (· < ·) ∧
      (∀ x, x ∈ r.freeIDs ↔ 1 ≤ x ∧ x ≤ inv.getLast hne - 1 ∧ x ∉ inv) ∧
      (∀ x ∈ r.freeIDs, x < inv.getLast hne) := by
  obtain ⟨r, hr, _, hfree, _⟩ := Init_of_ne_nil inv hne
  refine ⟨r, hr, ?_, ?_, ?_⟩
  · rw [hfree]
    exact eraseUsed_sorted _ _
  · intro x
    rw [hfree]
    exact mem_eraseUsed _ _ _
  · intro x hx
    rw [hfree, mem_eraseUsed] at hx
    omega

theorem free_slot_calculator_witness :
    ∃ r, Init [1, 2, 4, 7] = some r ∧ r.freeIDs = [3, 5, 6] ∧
      (∀ x, x ∈ r.freeIDs ↔ 1 ≤ x ∧ x ≤ 7 - 1 ∧ x ∉ [1, 2, 4, 7]) := by
  obtain ⟨r, hr, _, hmem, _⟩ :=
    free_slot_calculator [1, 2, 4, 7] (by decide) (by decide) (by decide)
  refine ⟨r, hr, ?_, hmem⟩
  have h : Init [1, 2, 4, 7] = some (InitResult.replaced 7 [3, 5, 6]
      [(7, 3), (4, 5), (2, 6)] (fixedUpdate :: executorLoop [(7, 3), (4, 5), (2, 6)])) := by
    decide
  rw [h] at hr
  cases hr
  rfl

/-- C3 (bijection within a pass): on every non-empty strictly ascending inventory of
positive integers `Init` returns a mapping whose `from` values are pairwise distinct,
whose `to` values are pairwise distinct, whose every `from` is in the inventory and
every `to` is not, so that no identifier is both a `from` and a `to`. -/
theorem mapping_bijection (inv : List Int) (hne : inv ≠ []) (hs : inv.Sorted (· < ·))
    (_hpos : ∀ x ∈ inv, 0 < x) :
    ∃ r, Init inv = some r ∧
      (r.replaceStore.map Prod.fst).Nodup ∧
      (r.replaceStore.map Prod.snd).Nodup ∧
      (∀ p ∈ r.replaceStore, p.1 ∈ inv ∧ p.2 ∉ inv) ∧
      List.Disjoint (r.replaceStore.map Prod.fst) (r.replaceStore.map Prod.snd) := by
  obtain ⟨r, hr, _, hstore⟩ := Init_replaceStore inv hne hs
  have hinvnd : inv.reverse.Nodup :=
    List.nodup_reverse.mpr (hs.imp (fun h => ne_of_lt h))
  have hmem : ∀ p ∈ r.replaceStore, p.1 ∈ inv ∧ p.2 ∉ inv := by
    rintro ⟨f, t⟩ hp
    rw [hstore] at hp
    have h := List.of_mem_zip hp
    exact ⟨List.mem_reverse.mp h.1, ((mem_eraseUsed _ _ _).mp h.2).2.2⟩
  refine ⟨r, hr, ?_, ?_, hmem, ?_⟩
  · rw [hstore]
    exact hinvnd.sublist (map_fst_zip_sublist _ _)
  · rw [hstore]
    exact (eraseUsed_nodup _ _).sublist (map_snd_zip_sublist _ _)
  · intro x hx1 hx2
    obtain ⟨p, hp, rfl⟩ := List.mem_map.mp hx1
    obtain ⟨q, hq, hqx⟩ := List.mem_map.mp hx2
    exact (hmem q hq).2 (hqx ▸ (hmem p hp).1)

theorem mapping_bijection_witness :
    ∃ r, Init [2, 5, 6, 9] = some r ∧
      (r.replaceStore.map Prod.fst).Nodup ∧
      (r.replaceStore.map Prod.snd).Nodup ∧
      (∀ p ∈ r.replaceStore, p.1 ∈ [2, 5, 6, 9] ∧ p.2 ∉ [2, 5, 6, 9]) ∧
      List.Disjoint (r.replaceStore.map Prod.fst) (r.replaceStore.map Prod.snd) :=
  mapping_bijection [2, 5, 6, 9] (by decide) (by decide) (by decide)

/-- C4 at the failing input: with owning rows `[1, 3]` and the rows `[1, 3]` in
`character_inventory.item`, a pass leaves the owning rows `[3631, 2]` and the
dependent rows `[1, 2]`: the dependent row that referenced the first owning row
still holds `1`, which is no longer an identifier of the owning table. -/
theorem dangling_reference_at_1_3 :
    (pass (withInventoryRefs [1, 3] [1, 3])).map (fun db => db.item_instance)
        = some [3631, 2] ∧
      (pass (withInventoryRefs [1, 3] [1, 3])).map
          (fun db => db.dependent "character_inventory" "item") = some [1, 2] ∧
      (1 : Int) ∉ ([3631, 2] : List Int) := by
  refine ⟨by decide, by decide, by decide⟩

/-- C5 as stated fails: on the owning rows `[2, 3, 5, 8]` the planned mapping is
`[(8, 1), (5, 4), (3, 6), (2, 7)]`; the update of lines 86-88 matches no row, so the
executor loop alone and the whole pass both leave the owning identifiers
`[1, 4, 6, 7]` (in scan order), on which `Init` finds the free slots `[2, 3, 5]` and
plans the non-empty mapping `[(7, 2), (6, 3), (4, 5)]`. -/
theorem rederivation_counterexample :
    ([2, 3, 5, 8] : List Int) ≠ [] ∧ ([2, 3, 5, 8] : List Int).Sorted (· < ·) ∧
      (∀ x ∈ ([2, 3, 5, 8] : List Int), 0 < x) ∧
      ∃ r, Init [2, 3, 5, 8] = some r ∧
        r.replaceStore = [(8, 1), (5, 4), (3, 6), (2, 7)] ∧
        scan (executorRun (ownerOnly [2, 3, 5, 8]) r.replaceStore).1.item_instance
          = [1, 4, 6, 7] ∧
        (pass (ownerOnly [2, 3, 5, 8])).map (fun db => scan db.item_instance)
          = some [1, 4, 6, 7] ∧
        ∃ r2, Init [1, 4, 6, 7] = some r2 ∧ r2.freeIDs = [2, 3, 5] ∧
          r2.replaceStore = [(7, 2), (6, 3), (4, 5)] ∧ r2.replaceStore ≠ [] :=
  ⟨by decide, by decide, by decide,
    InitResult.replaced 8 [1, 4, 6, 7] [(8, 1), (5, 4), (3, 6), (2, 7)]
      (fixedUpdate :: executorLoop [(8, 1), (5, 4), (3, 6), (2, 7)]),
    by decide, rfl, by decide, by decide,
    InitResult.replaced 7 [2, 3, 5] [(7, 2), (6, 3), (4, 5)]
      (fixedUpdate :: executorLoop [(7, 2), (6, 3), (4, 5)]),
    by decide, rfl, rfl, by decide⟩

/-- C5 (amended): for every non-empty strictly ascending inventory of positive
integers that does not contain the identifier `1` and whose planned mapping moves
every identifier down (`to < from` for every entry), and whatever the dependent
tables hold: a whole pass of `Init` (scan, plan, and every submitted statement
applied in order, the update of lines 86-88 included) returns tables whose owning
identifiers in scan order are exactly `1, ..., len(inventory)`, and `Init` run on
them finds no free slot, plans an empty mapping and submits nothing. -/
theorem rederivation_when_all_move_down (inv : List Int) (hne : inv ≠ [])
    (hs : inv.Sorted (· < ·)) (hpos : ∀ x ∈ inv, 0 < x) (hone : (1 : Int) ∉ inv)
    (deps : String → String → List Int)
    (hdown : ∀ r, Init inv = some r → ∀ p ∈ r.replaceStore, p.2 < p.1) :
    ∃ db r2, pass { item_instance := inv, dependent := deps } = some db ∧
      scan db.item_instance = denseInventory inv.length ∧
      Init (scan db.item_instance) = some r2 ∧
      r2.freeIDs = [] ∧ r2.replaceStore = [] ∧ r2.statements = [] := by
  obtain ⟨r, hr, _⟩ := Init_of_ne_nil inv hne
  obtain ⟨db, db1, hpass, hdb1, hrows⟩ :=
    pass_item_instance_of_one_not_mem inv hne hs hone deps r hr
  have hscan : scan db.item_instance = denseInventory inv.length := by
    rw [hrows]
    exact executorRun_dense_of_all_down inv hne hs hpos db1 hdb1 r hr (hdown r hr)
  have hlen : inv.length ≠ 0 := fun h => hne (List.length_eq_zero.mp h)
  refine ⟨db, InitResult.noFreeIds (inv.length : Int), hpass, hscan, ?_, rfl, rfl, rfl⟩
  rw [hscan, Init_denseInventory, if_neg hlen]

theorem rederivation_when_all_move_down_witness :
    ∃ db r2, pass { item_instance := [5, 6, 7], dependent := fun _ _ => [] } = some db ∧
      scan db.item_instance = denseInventory 3 ∧
      Init (scan db.item_instance) = some r2 ∧
      r2.freeIDs = [] ∧ r2.replaceStore = [] ∧ r2.statements = [] := by
  have hinit : Init [5, 6, 7] = some (InitResult.replaced 7 [1, 2, 3, 4]
      [(7, 1), (6, 2), (5, 3)] (fixedUpdate :: executorLoop [(7, 1), (6, 2), (5, 3)])) := by
    decide
  refine rederivation_when_all_move_down [5, 6, 7] (by decide) (by decide) (by decide)
    (by decide) (fun _ _ => []) ?_
  intro r hr
  rw [hinit] at hr
  cases hr
  decide

/-- C6 at the failing input: on the inventory `[1, 3]` the planned mapping is
`[(3, 2)]`, yet the first statement `Init` submits is
`UPDATE item_instance SET guid = 3631 WHERE guid = 1`, which belongs to no entry of
the mapping, and the owning identifier `1`, not a `from`, ends as `3631`. -/
theorem unplanned_update_at_1_3 :
    ∃ r, Init [1, 3] = some r ∧ r.replaceStore = [(3, 2)] ∧
      r.statements.head? = some (Statement.updItemInstance 3631 1) ∧
      (∃ s ∈ r.statements, ∀ p ∈ r.replaceStore, ¬ (s.whereId = p.1 ∧ s.setId = p.2)) ∧
      (1 : Int) ∉ r.replaceStore.map Prod.fst ∧
      (applyStatements (ownerOnly [1, 3]) r.statements).item_instance = [3631, 2] :=
  ⟨InitResult.replaced 3 [2] [(3, 2)] (fixedUpdate :: executorLoop [(3, 2)]),
    by decide, rfl, rfl, ⟨fixedUpdate, by decide, by decide⟩, by decide, by decide⟩

/-- C7 as stated fails: with the single owning row `6` and the mapping
`[(5, 1), (6, 2)]`, the owning-table update of the first entry matches no row, yet
the executor goes on to submit all eleven statements of the second entry, and its
owning-table update is applied (the row `6` becomes `2`). -/
theorem stale_row_counterexample :
    (5 : Int) ∉ (ownerOnly [6]).item_instance ∧
      (executorRun (ownerOnly [6]) [(5, 1), (6, 2)]).2
        = entryStatements 5 1 ++ entryStatements 6 2 ∧
      Statement.updItemInstance 2 6 ∈ (executorRun (ownerOnly [6]) [(5, 1), (6, 2)]).2 ∧
      (executorRun (ownerOnly [6]) [(5, 1), (6, 2)]).2.length = 22 ∧
      (executorRun (ownerOnly [6]) [(5, 1), (6, 2)]).1.item_instance = [2] := by
  refine ⟨by decide, by decide, by decide, by decide, by decide⟩

/-- C7 (amended): the executor loop never looks at the number of rows a statement
matched. For every mapping `done ++ (idFrom, idTo) :: rest` and all tables, if the
owning-table update of the entry `(idFrom, idTo)` matches zero rows (`idFrom` is
not in the owning table once the entries of `done` are applied), that update leaves
the owning table as it is and the pass continues: the submitted statements are all
those of `done`, of the entry and of `rest`, eleven per entry, and the final tables
are those reached by running `rest` after the entries before it. -/
theorem executor_ignores_stale_row (db : DB) (done rest : List (Int × Int))
    (idFrom idTo : Int) (hstale : idFrom ∉ (executorRun db done).1.item_instance) :
    (applyStatement (executorRun db done).1
        (Statement.updItemInstance idTo idFrom)).item_instance
      = (executorRun db done).1.item_instance ∧
    (executorRun db (done ++ (idFrom, idTo) :: rest)).2
      = executorLoop done ++ (entryStatements idFrom idTo ++ executorLoop rest) ∧
    (executorRun db (done ++ (idFrom, idTo) :: rest)).2.length
      = 11 * (done.length + 1 + rest.length) ∧
    (executorRun db (done ++ (idFrom, idTo) :: rest)).1
      = (executorRun (applyStatements (executorRun db done).1
          (entryStatements idFrom idTo)) rest).1 := by
  refine ⟨?_, ?_, ?_, ?_⟩
  · exact updateItemInstance_of_not_mem _ _ _ hstale
  · rw [executorRun_snd, executorLoop_append]
    rfl
  · rw [executorRun_snd, executorLoop_length, List.length_append, List.length_cons]
    omega
  · rw [executorRun_append_fst]
    rfl

theorem executor_ignores_stale_row_witness :
    (executorRun (ownerOnly [7, 6]) ([(7, 1)] ++ (5, 2) :: [(6, 3)])).2
        = executorLoop [(7, 1)] ++ (entryStatements 5 2 ++ executorLoop [(6, 3)]) ∧
      (executorRun (ownerOnly [7, 6]) ([(7, 1)] ++ (5, 2) :: [(6, 3)])).1.item_instance
        = [1, 3] := by
  have h := executor_ignores_stale_row (ownerOnly [7, 6]) [(7, 1)] [(6, 3)] 5 2 (by decide)
  exact ⟨h.2.1, by decide⟩

/-- C8 (no-op when there is nothing to compact): for every `N`, on the inventory
`1..N` the function `Init` returns with an empty free-slot set, an empty mapping and
no submitted statement at all (neither an update of a mapping entry nor the fixed
update of lines 86-88); for `N = 0` it returns without having read a last element,
for `N > 0` the last element read is `N`. -/
theorem dense_inventory_noop (N : Nat) :
    ∃ r, Init (denseInventory N) = some r ∧ r.freeIDs = [] ∧ r.replaceStore = [] ∧
      r.statements = [] ∧ r.lastGuid = (if N = 0 then none else some (N : Int)) := by
  refine ⟨_, Init_denseInventory N, ?_⟩
  by_cases hN : N = 0
  · simp [hN, InitResult.freeIDs, InitResult.replaceStore, InitResult.statements,
      InitResult.lastGuid]
  · simp [hN, InitResult.freeIDs, InitResult.replaceStore, InitResult.statements,
      InitResult.lastGuid]

/-- C9 as stated fails: the inventory `[10]` has one identifier and nine free
slots; the planner loop ends after the single entry `(10, 1)` with eight free slots
left. -/
theorem free_slots_outnumber_counterexample :
    ([10] : List Int) ≠ [] ∧ ([10] : List Int).Sorted (· < ·) ∧
      (∀ x ∈ ([10] : List Int), 0 < x) ∧
      ∃ r, Init [10] = some r ∧ r.freeIDs = [1, 2, 3, 4, 5, 6, 7, 8, 9] ∧
        r.replaceStore = [(10, 1)] ∧
        ¬ r.freeIDs.length ≤ ([10] : List Int).length := by
  refine ⟨by decide, by decide, by decide,
    InitResult.replaced 10 [1, 2, 3, 4, 5, 6, 7, 8, 9] [(10, 1)]
      (fixedUpdate :: executorLoop [(10, 1)]), by decide, rfl, rfl, by decide⟩

/-- C9 (amended): on every non-empty strictly ascending inventory of positive
integers with last element `max_used`, the number of free slots `Init` computes plus
the number of inventory identifiers is exactly `max_used`; so the free slots number
at most `max_used - 1`, and they outnumber the inventory as soon as
`max_used` exceeds twice the inventory size. -/
theorem free_slot_count (inv : List Int) (hne : inv ≠ []) (hs : inv.Sorted (· < ·))
    (hpos : ∀ x ∈ inv, 0 < x) :
    ∃ r, Init inv = some r ∧
      (r.freeIDs.length : Int) + (inv.length : Int) = inv.getLast hne ∧
      (r.freeIDs.length : Int) ≤ inv.getLast hne - 1 := by
  obtain ⟨r, hr, _, hfree, _⟩ := Init_of_ne_nil inv hne
  have hle := le_getLast_of_sorted inv hne hs
  have hlast : inv.getLast hne ∈ inv := List.getLast_mem hne
  have hnd : (r.freeIDs ++ inv).Nodup := by
    refine List.Nodup.append ?_ (hs.imp (fun h => ne_of_lt h)) ?_
    · rw [hfree]
      exact eraseUsed_nodup _ _
    · intro x hx1 hx2
      rw [hfree, mem_eraseUsed] at hx1
      exact hx1.2.2 hx2
  have hset : (r.freeIDs ++ inv).toFinset = Finset.Icc 1 (inv.getLast hne) := by
    ext x
    rw [List.mem_toFinset, List.mem_append, hfree, mem_eraseUsed, Finset.mem_Icc]
    constructor
    · rintro (⟨h1, h2, _⟩ | h)
      · omega
      · exact ⟨hpos x h, hle x h⟩
    · rintro ⟨h1, h2⟩
      by_cases hx : x ∈ inv
      · exact Or.inr hx
      · refine Or.inl ⟨h1, ?_, hx⟩
        have : x ≠ inv.getLast hne := fun e => hx (e ▸ hlast)
        omega
  have hcard := List.toFinset_card_of_nodup hnd
  rw [hset, Int.card_Icc, List.length_append] at hcard
  have hp := hpos _ hlast
  have hlen : 0 < inv.length := List.length_pos.mpr hne
  refine ⟨r, hr, ?_, ?_⟩ <;> omega

theorem free_slot_count_witness :
    ∃ r, Init [10] = some r ∧ (r.freeIDs.length : Int) + 1 = 10 := by
  obtain ⟨r, hr, hcount, _⟩ := free_slot_count [10] (by decide) (by decide) (by decide)
  exact ⟨r, hr, by simpa using hcount⟩

/-- C10 as stated fails: on the inventory `[1, 2, 4, 7]` the mapping of `Init` is
`[(7, 3), (4, 5), (2, 6)]`, whose entries `(4, 5)` and `(2, 6)` move an identifier
to a higher one. -/
theorem moves_up_counterexample :
    ([1, 2, 4, 7] : List Int) ≠ [] ∧ ([1, 2, 4, 7] : List Int).Sorted (· < ·) ∧
      (∀ x ∈ ([1, 2, 4, 7] : List Int), 0 < x) ∧
      ∃ r, Init [1, 2, 4, 7] = some r ∧ r.replaceStore = [(7, 3), (4, 5), (2, 6)] ∧
        (4, 5) ∈ r.replaceStore ∧ (2, 6) ∈ r.replaceStore ∧
        ¬ (∀ p ∈ r.replaceStore, p.2 < p.1) :=
  ⟨by decide, by decide, by decide,
    InitResult.replaced 7 [3, 5, 6] [(7, 3), (4, 5), (2, 6)]
      (fixedUpdate :: executorLoop [(7, 3), (4, 5), (2, 6)]),
    by decide, rfl, by decide, by decide, by decide⟩

/-- C10 (amended): on every non-empty strictly ascending inventory of positive
integers, every entry `(from, to)` of the mapping planned by `Init` has `to` strictly
below `max_used` (the `from` of the first entry) and different from `from`, and
satisfies `to < from` exactly when `to` is at most the number of identifiers in the
inventory; an entry whose `to` exceeds that number moves its identifier up. -/
theorem moves_down_iff (inv : List Int) (hne : inv ≠ []) (hs : inv.Sorted (· < ·))
    (hpos : ∀ x ∈ inv, 0 < x) :
    ∃ r, Init inv = some r ∧
      ∀ p ∈ r.replaceStore,
        p.2 < inv.getLast hne ∧ p.2 ≠ p.1 ∧ (p.2 < p.1 ↔ p.2 ≤ inv.length) := by
  obtain ⟨r, hr, _, hstore⟩ := Init_replaceStore inv hne hs
  refine ⟨r, hr, ?_⟩
  rintro ⟨f, t⟩ hp
  rw [hstore] at hp
  have h := entry_down_iff inv hne hs hpos f t hp
  exact ⟨h.2.1, h.2.2.1, h.2.2.2⟩

theorem moves_down_iff_witness :
    ∃ r, Init [1, 2, 4, 7] = some r ∧
      ∀ p ∈ r.replaceStore, p.2 < 7 ∧ p.2 ≠ p.1 ∧ (p.2 < p.1 ↔ p.2 ≤ (4 : Nat)) :=
  moves_down_iff [1, 2, 4, 7] (by decide) (by decide) (by decide)

/-- C11 (executor submission order): for every mapping `store`, the statements the
executor loop of `Init` submits are, in order, the concatenation over the entries
(planner order) of the owning-table update `SET guid = to WHERE guid = from` followed
by one update `SET column = to WHERE column = from` for each of the ten registry
descriptors in declared order (`auctionhouse.itemguid` first,
`petition_sign.petitionguid` last), whatever the tables hold. So the loop submits
`11 * k` statements; the statements of the `i`-th entry fill the positions `11 * i`
to `11 * i + 10`, the owning-table update at `11 * i` and the update for the `j`-th
descriptor at `11 * i + 1 + j`; and in a run of `Init` these are all the statements
after the first one submitted. -/
theorem executor_submission_order (store : List (Int × Int)) (db : DB) (rows : List Int) :
    executorLoop store = (store.map (fun p => statedEntryOrder p.1 p.2)).flatten ∧
    (executorRun db store).2 = executorLoop store ∧
    (executorLoop store).length = 11 * store.length ∧
    (∀ i : Fin store.length,
      (executorLoop store)[11 * i.val]?
        = some (Statement.updItemInstance (store.get i).2 (store.get i).1)) ∧
    (∀ (i : Fin store.length) (j : Fin cleanDBTables.length),
      (executorLoop store)[11 * i.val + (1 + j.val)]?
        = some (Statement.updDependent (cleanDBTables.get j).1 (cleanDBTables.get j).2
            (store.get i).2 (store.get i).1)) ∧
    cleanDBTables.length = 10 ∧
    cleanDBTables.head? = some ("auctionhouse", "itemguid") ∧
    cleanDBTables.getLast? = some ("petition_sign", "petitionguid") ∧
    (Init rows).map (fun r => r.statements.tail)
      = (Init rows).map (fun r => executorLoop r.replaceStore) := by
  refine ⟨executorLoop_eq_flatten store, executorRun_snd db store,
    executorLoop_length store, ?_, ?_, rfl, rfl, rfl, Init_statements_tail rows⟩
  · intro i
    have h := executorLoop_getElem_opt store i.val 0 (by omega)
    rw [Nat.add_zero] at h
    rw [h, List.getElem?_eq_getElem i.isLt]
    rfl
  · intro i j
    have hj : j.val < 10 := j.isLt
    have h := executorLoop_getElem_opt store i.val (1 + j.val) (by omega)
    rw [h, List.getElem?_eq_getElem i.isLt]
    simp only [Option.some_bind, entryStatements, Nat.add_comm 1 j.val,
      List.getElem?_cons_succ, List.getElem?_map, List.getElem?_eq_getElem j.isLt,
      Option.map_some']
    rfl

end DBCleaner
